import Mathlib

/-!
Verification development for the BlueGuard Security Tools core
(`src/app.py`): a password strength scorer (`rate_password`) and a
password generator (`generate_password`).

The Python source is shallowly embedded below.  Machine integers are
`Int`/`Nat`; Python lists/strings are Lean `List`/`String`; character
classification uses ASCII semantics (all reference pools and denylists in
the source are ASCII, and Lean's `Char.isLower` etc. agree with Python's
on ASCII).  Python `ValueError`/`IndexError` become an explicit error
type, and the secure random source (`secrets`) is modelled by an explicit
trace of naturals: each primitive draw with bound `b` consumes one trace
element `n` and yields `n % b`, so every trace denotes a possible run and
every possible run is denoted by some trace.
-/

namespace BlueGuard

/- ===================== Strength scorer (src/app.py 38-114) ===================== -/

/-- Source line 38-41: the COMMON set of known common passwords
(membership is all that is used, so a list models the Python set). -/
def COMMON : List String :=
  ["123456", "password", "12345678", "qwerty", "123456789", "12345", "111111", "abc123",
   "password1", "admin", "letmein", "welcome", "iloveyou", "monkey", "dragon", "login"]

/-- Source line 42: SEQUENTIALS reference sequences. -/
def SEQUENTIALS : List String :=
  ["abcdefghijklmnopqrstuvwxyz", "qwertyuiop", "asdfghjkl", "zxcvbnm", "0123456789"]

/-- Source line 44: `_has_lower`. -/
def has_lower (s : String) : Bool := s.data.any Char.isLower

/-- Source line 45: `_has_upper`. -/
def has_upper (s : String) : Bool := s.data.any Char.isUpper

/-- Source line 46: `_has_digit`. -/
def has_digit (s : String) : Bool := s.data.any Char.isDigit

/-- Source line 47: `_has_symbol` — any character that is not alphanumeric. -/
def has_symbol (s : String) : Bool := s.data.any (fun c => !c.isAlphanum)

/-- Helper for `has_repeats`: scans for three consecutive equal characters.
The source regex `(.)\1{2,}` captures with `.`, which does not match a
newline, hence the first character of the run must not be a newline. -/
def hasRepeatsGo : List Char → Bool
  | a :: b :: c :: rest => (a != Char.ofNat 10 && a == b && b == c) || hasRepeatsGo (b :: c :: rest)
  | _ => false

/-- Source lines 49-50: `_has_repeats` with the default n=3 (regex
`(.)\1{2,}` searched anywhere in the string). -/
def has_repeats (s : String) : Bool := hasRepeatsGo s.data

/-- `needle` is a prefix of `hay` (Python slice comparison, used for
substring containment below). -/
def startsWithL : List Char → List Char → Bool
  | [], _ => true
  | _ :: _, [] => false
  | a :: as, b :: bs => a == b && startsWithL as bs

/-- Python's `chunk in low`: contiguous-substring containment. -/
def containsSub (needle : List Char) : List Char → Bool
  | [] => needle.isEmpty
  | c :: rest => startsWithL needle (c :: rest) || containsSub needle rest

/-- The length-4 windows `seq[i:i+window]` for `i in range(len(seq)-window+1)`. -/
def windows4 (seq : List Char) : List (List Char) :=
  (List.range (seq.length - 4 + 1)).map (fun i => (seq.drop i).take 4)

/-- Source lines 52-59: `_has_sequence` with the default window=4: the
lowercased input contains some 4-character slice of a reference sequence,
forward (`chunk in low`) or reversed (`chunk[::-1] in low`). -/
def has_sequence (s : String) : Bool :=
  let low := s.data.map Char.toLower
  SEQUENTIALS.any (fun seq =>
    (windows4 seq.data).any (fun chunk => containsSub chunk low || containsSub chunk.reverse low))

/-- Source lines 61-67: `_charset_size`. -/
def charset_size (pw : String) : Nat :=
  let size := 0
  let size := if has_lower pw then size + 26 else size
  let size := if has_upper pw then size + 26 else size
  let size := if has_digit pw then size + 10 else size
  let size := if has_symbol pw then size + 33 else size
  max 1 size

/-- Fuel-driven binary logarithm, structurally recursive so that concrete
instances evaluate inside the kernel; equal to `Nat.log2` when the fuel is
at least the argument (proved below). -/
def log2fuel : Nat → Nat → Nat
  | 0, _ => 0
  | fuel + 1, n => if 2 ≤ n then log2fuel fuel (n / 2) + 1 else 0

/-- `⌊log2 n⌋` for `n ≥ 1` (and 0 at 0). -/
def intLog2 (n : Nat) : Nat := log2fuel n n

/-- `int(estimate_entropy_bits pw)` from source lines 69-71 and 81:
`int(len(pw) * math.log2(charset_size pw))`.  For a positive charset size
`cs`, `len * log2 cs = log2 (cs ^ len)`, whose floor is `intLog2 (cs ^ len)`;
the embedding uses exact real arithmetic in place of IEEE doubles. -/
def entropy_floor (pw : String) : Nat := intLog2 (charset_size pw ^ pw.length)

/-- Source line 82: `variety = sum([_has_lower, _has_upper, _has_digit,
_has_symbol])`, as a Python int. -/
def variety (pw : String) : Int :=
  (if has_lower pw then 1 else 0) + (if has_upper pw then 1 else 0)
    + (if has_digit pw then 1 else 0) + (if has_symbol pw then 1 else 0)

/-- Source lines 81-83: `base = min(80, int(entropy)); base += (variety-1)*5`. -/
def base_score (pw : String) : Int :=
  min 80 (entropy_floor pw) + (variety pw - 1) * 5

/-- Python `str.lower` (ASCII case folding; all reference-table entries
are ASCII). -/
def strLower (s : String) : String := String.mk (s.data.map Char.toLower)

def commonMsg : String := "Appears in common-password lists."
def tooShortMsg : String := "Too short. Use at least 12–14 characters."
def longerMsg : String := "Longer is stronger: aim for 12–16+ characters."

/-- A single-quote character (source line 92's message quotes aaa and 1111). -/
def sq : String := String.mk [Char.ofNat 39]

def repeatsMsg : String :=
  "Avoid repeated characters like " ++ sq ++ "aaa" ++ sq ++ " or " ++ sq ++ "1111" ++ sq ++ "."
def sequenceMsg : String := "Avoid keyboard/alphabetical sequences."
def varietyMsg : String := "Add upper/lowercase, digits and symbols for variety."
def passphraseMsg : String := "Consider a passphrase of 4–5 random words."
def targetMsg : String := "Target 16+ characters for long-term safety."

/-- Source lines 85-94: the penalty accumulator and the feedback list it
builds, in source order (common-list, length, repeats, sequences, variety). -/
def penaltiesAndFb (pw : String) : Int × List String :=
  let pf : Int × List String := (0, [])
  let pf := if COMMON.contains (strLower pw) then (pf.1 + 40, pf.2 ++ [commonMsg]) else pf
  let pf := if pw.length < 8 then (pf.1 + 25, pf.2 ++ [tooShortMsg])
            else if pw.length < 12 then (pf.1 + 10, pf.2 ++ [longerMsg]) else pf
  let pf := if has_repeats pw then (pf.1 + 10, pf.2 ++ [repeatsMsg]) else pf
  let pf := if has_sequence pw then (pf.1 + 10, pf.2 ++ [sequenceMsg]) else pf
  if variety pw ≤ 2 then (pf.1, pf.2 ++ [varietyMsg]) else pf

/-- Source line 96: `score = max(0, min(100, base - penalty))` (non-empty path). -/
def score_of (pw : String) : Int :=
  max 0 (min 100 (base_score pw - (penaltiesAndFb pw).1))

/-- Source lines 97-101: the rating thresholds. -/
def ratingOf (score : Int) : String :=
  if score < 25 then "Very Weak"
  else if score < 45 then "Weak"
  else if score < 65 then "Fair"
  else if score < 85 then "Strong"
  else "Excellent"

/-- The feedback list just before source line 108's dedupe: penalties
feedback (lines 85-94) plus closing advice (lines 103-106); for the empty
password, the feedback of the early return at line 77. -/
def rawFeedback (pw : String) : List String :=
  if pw.length = 0 then ["Password is empty."]
  else
    let rating := ratingOf (score_of pw)
    let fb := (penaltiesAndFb pw).2
    let fb := if rating == "Very Weak" || rating == "Weak" then fb ++ [passphraseMsg] else fb
    if rating != "Excellent" && pw.length < 16 then fb ++ [targetMsg] else fb

/-- Source lines 108-112 loop body: `seen` is a set used only for
membership, modelled by the list of elements added so far. -/
def dedupeGo : List String → List String → List String
  | [], _ => []
  | t :: ts, seen => if seen.contains t then dedupeGo ts seen else t :: dedupeGo ts (t :: seen)

/-- Source lines 108-112: deduplicate keeping first occurrences. -/
def dedupe (l : List String) : List String := dedupeGo l []

/-- The assessment record returned by `rate_password` (source line 114 /
line 77).  `entropy` is the reported `round(entropy, 1)` value, modelled
exactly as the floor of the entropy to one decimal place (the embedding
does not model IEEE rounding of the displayed tenths; no proved property
depends on this field for non-empty inputs). -/
structure Assessment where
  score : Int
  rating : String
  entropy : ℚ
  feedback : List String
deriving DecidableEq

/-- Reported one-decimal entropy: `⌊10 · len · log2 cs⌋ / 10`. -/
def entropy_reported (pw : String) : ℚ :=
  (intLog2 (charset_size pw ^ (10 * pw.length)) : ℚ) / 10

/-- Source lines 73-114: `rate_password`. -/
def rate_password (pw : String) : Assessment :=
  if pw.length = 0 then
    { score := 0, rating := "Very Weak", entropy := 0, feedback := ["Password is empty."] }
  else
    { score := score_of pw
      rating := ratingOf (score_of pw)
      entropy := entropy_reported pw
      feedback := dedupe (rawFeedback pw) }

/- ===================== Password generator (src/app.py 117-146) ===================== -/

/-- Source line 117: the AMBIGUOUS denylist, the characters of the Python
string literal (backtick = 96, single quote = 39, double quote = 34,
braces = 123/125 written by code point). -/
def AMBIGUOUS : List Char :=
  ['O', '0', 'o', 'I', 'l', '1', '|', Char.ofNat 96, Char.ofNat 39, Char.ofNat 34,
   ';', ':', ',', '.', Char.ofNat 123, Char.ofNat 125, '[', ']', '(', ')', '<', '>']

/-- `string.ascii_lowercase`. -/
def ascii_lowercase : String := "abcdefghijklmnopqrstuvwxyz"

/-- `string.ascii_uppercase`. -/
def ascii_uppercase : String := "ABCDEFGHIJKLMNOPQRSTUVWXYZ"

/-- `string.digits`. -/
def digitsStr : String := "0123456789"

/-- The generator's symbol set (source lines 124 and 141). -/
def symbolsStr : String := "!@#$%^&*_-+=:?/~"

/-- Source lines 119-127: `build_charset`. -/
def build_charset (lower upper digits symbols no_amb : Bool) : String :=
  let chars := ""
  let chars := if lower then chars ++ ascii_lowercase else chars
  let chars := if upper then chars ++ ascii_uppercase else chars
  let chars := if digits then chars ++ digitsStr else chars
  let chars := if symbols then chars ++ symbolsStr else chars
  if no_amb then String.mk (chars.data.filter (fun c => !AMBIGUOUS.contains c)) else chars

/-- The arguments of `generate_password` (the spec's GenerationParams):
`length` plus the four class flags and the ambiguous-exclusion flag. -/
structure GenerationParams where
  length : Nat
  lower : Bool
  upper : Bool
  digits : Bool
  symbols : Bool
  no_amb : Bool
deriving DecidableEq

/-- `sum([lower, upper, digits, symbols])` at source line 132. -/
def numTrue (p : GenerationParams) : Nat :=
  (if p.lower then 1 else 0) + (if p.upper then 1 else 0)
    + (if p.digits then 1 else 0) + (if p.symbols then 1 else 0)

/-- The exceptions `generate_password` can raise: Python `ValueError`
(validation at lines 130-133, and `secrets.randbelow` on a non-positive
bound) and Python `IndexError` (`secrets.choice` on an empty sequence). -/
inductive GenError where
  | valueError (msg : String)
  | indexError
deriving DecidableEq

deriving instance DecidableEq for Except

/-- The secure random source, as the trace of values it will produce. -/
abbrev RSrc := List Nat

/-- One primitive uniform draw below `bound`: consumes a trace element
`n` and yields `n % bound` (an empty trace yields 0, in range for any
positive bound). -/
def draw (bound : Nat) : RSrc → Nat × RSrc
  | [] => (0, [])
  | n :: rest => (n % bound, rest)

/-- `secrets.randbelow`: raises `ValueError` on a non-positive bound. -/
def randbelow (bound : Nat) (r : RSrc) : Except GenError (Nat × RSrc) :=
  if bound = 0 then .error (.valueError "Upper bound must be positive.")
  else .ok (draw bound r)

/-- `secrets.choice(seq)`: `seq[randbelow(len(seq))]`, an `IndexError`
when the sequence is empty. -/
def choice (seq : String) (r : RSrc) : Except GenError (Char × RSrc) :=
  if seq.length = 0 then .error .indexError
  else .ok (seq.data.getD (draw seq.length r).1 (Char.ofNat 0), (draw seq.length r).2)

/-- Source line 135: `[secrets.choice(charset) for _ in range(length)]`,
drawing the positions left to right; an exception aborts the run. -/
def fillList : Nat → String → RSrc → Except GenError (List Char × RSrc)
  | 0, _, r => .ok ([], r)
  | n + 1, seq, r =>
    match choice seq r with
    | .error e => .error e
    | .ok cr =>
      match fillList n seq cr.2 with
      | .error e => .error e
      | .ok tr => .ok (cr.1 :: tr.1, tr.2)

/-- Source lines 137-141: the per-class pools for the complexity step, in
fixed order; note they are NOT filtered by `no_amb`. -/
def classPools (lower upper digits symbols : Bool) : List String :=
  (if lower then [ascii_lowercase] else []) ++ (if upper then [ascii_uppercase] else [])
    ++ (if digits then [digitsStr] else []) ++ (if symbols then [symbolsStr] else [])

/-- Source lines 142-144: for each pool, pick a random index of the buffer
and overwrite it with a random character of that pool. -/
def ensureComplexity : List String → List Char → RSrc → Except GenError (List Char × RSrc)
  | [], pw, r => .ok (pw, r)
  | pool :: pools, pw, r =>
    match randbelow pw.length r with
    | .error e => .error e
    | .ok kr =>
      match choice pool kr.2 with
      | .error e => .error e
      | .ok cr => ensureComplexity pools (pw.set kr.1 cr.1) cr.2

/-- `x[i], x[j] = x[j], x[i]` on a list (both indices in bounds at every
use below). -/
def listSwap (l : List Char) (i j : Nat) : List Char :=
  let a := l.getD i (Char.ofNat 0)
  let b := l.getD j (Char.ofNat 0)
  (l.set i b).set j a

/-- CPython `random.shuffle` (used by `secrets.SystemRandom().shuffle` at
source line 145): `for i in reversed(range(1, len(x))): j = randbelow(i+1);
swap x[i] x[j]`.  The first argument is the current loop index `i`
(0 means the loop is done); `i + 1` handles index `i + 1` with bound `i + 2`. -/
def shuffleAux : Nat → List Char → RSrc → List Char × RSrc
  | 0, x, r => (x, r)
  | i + 1, x, r =>
    shuffleAux i (listSwap x (i + 1) (draw (i + 2) r).1) (draw (i + 2) r).2

/-- Source line 145: the Fisher-Yates shuffle of the buffer. -/
def shuffle (x : List Char) (r : RSrc) : List Char × RSrc :=
  shuffleAux (x.length - 1) x r

/-- Source lines 129-146: `generate_password`. -/
def generate_password (p : GenerationParams) (r : RSrc) : Except GenError (String × RSrc) :=
  if !(p.lower || p.upper || p.digits || p.symbols) then
    .error (.valueError "Enable at least one character set.")
  else if p.length < max 4 (numTrue p) then
    .error (.valueError "Length too short for requested complexity.")
  else
    match fillList p.length (build_charset p.lower p.upper p.digits p.symbols p.no_amb) r with
    | .error e => .error e
    | .ok pr =>
      match ensureComplexity (classPools p.lower p.upper p.digits p.symbols) pr.1 pr.2 with
      | .error e => .error e
      | .ok qr => .ok (String.mk (shuffle qr.1 qr.2).1, (shuffle qr.1 qr.2).2)

/-- The spec's validity condition on GenerationParams: at least one class
flag, and `length ≥ max(4, number of true flags)`. -/
def validParams (p : GenerationParams) : Prop :=
  (p.lower || p.upper || p.digits || p.symbols) = true ∧ max 4 (numTrue p) ≤ p.length

instance (p : GenerationParams) : Decidable (validParams p) := by
  unfold validParams; infer_instance

/- ===================== Scorer lemmas ===================== -/

theorem intLog2_eq_log (n : Nat) : intLog2 n = Nat.log 2 n := by
  suffices h : ∀ fuel m, m ≤ fuel → log2fuel fuel m = Nat.log 2 m from h n n le_rfl
  intro fuel
  induction fuel with
  | zero =>
    intro m hm
    have : m = 0 := Nat.le_zero.mp hm
    subst this
    simp [log2fuel]
  | succ f ih =>
    intro m hm
    unfold log2fuel
    by_cases h2 : 2 ≤ m
    · rw [if_pos h2, ih (m / 2) (by omega)]
      have hdiv : Nat.log 2 (m / 2) = Nat.log 2 m - 1 := Nat.log_div_base 2 m
      have hpos : 0 < Nat.log 2 m := Nat.log_pos (by omega) h2
      omega
    · rw [if_neg h2]
      exact (Nat.log_eq_zero_iff.mpr (Or.inl (by omega))).symm

theorem intLog2_mono {m n : Nat} (h : m ≤ n) : intLog2 m ≤ intLog2 n := by
  rw [intLog2_eq_log, intLog2_eq_log]
  exact Nat.log_mono_right h

theorem charset_size_pos (pw : String) : 1 ≤ charset_size pw := le_max_left 1 _

theorem variety_nonneg (pw : String) : 0 ≤ variety pw := by
  unfold variety; split_ifs <;> norm_num

theorem variety_le_four (pw : String) : variety pw ≤ 4 := by
  unfold variety; split_ifs <;> norm_num

theorem penalties_fst_nonneg (pw : String) : 0 ≤ (penaltiesAndFb pw).1 := by
  unfold penaltiesAndFb
  split_ifs <;> norm_num

theorem penalties_fst_of (pw : String) (hc : COMMON.contains (strLower pw) = false)
    (hr : has_repeats pw = false) (hs : has_sequence pw = false) :
    (penaltiesAndFb pw).1 = if pw.length < 8 then 25 else if pw.length < 12 then 10 else 0 := by
  unfold penaltiesAndFb
  rw [hc, hr, hs]
  simp only [Bool.false_eq_true, if_false]
  split_ifs <;> norm_num

theorem score_of_nonneg (pw : String) : 0 ≤ score_of pw := le_max_left 0 _

theorem rate_score_eq (pw : String) (h : ¬ pw.length = 0) :
    (rate_password pw).score = score_of pw := by
  simp [rate_password, h]

theorem charset_size_congr {p q : String} (hl : has_lower p = has_lower q)
    (hu : has_upper p = has_upper q) (hd : has_digit p = has_digit q)
    (hs : has_symbol p = has_symbol q) : charset_size p = charset_size q := by
  simp only [charset_size, hl, hu, hd, hs]

theorem variety_congr {p q : String} (hl : has_lower p = has_lower q)
    (hu : has_upper p = has_upper q) (hd : has_digit p = has_digit q)
    (hs : has_symbol p = has_symbol q) : variety p = variety q := by
  simp only [variety, hl, hu, hd, hs]

theorem ratingOf_excellent_iff (x : Int) : ratingOf x = "Excellent" ↔ 85 ≤ x := by
  unfold ratingOf
  split_ifs with h1 h2 h3 h4
  · exact ⟨fun h => absurd h (by decide), fun h => absurd h (by omega)⟩
  · exact ⟨fun h => absurd h (by decide), fun h => absurd h (by omega)⟩
  · exact ⟨fun h => absurd h (by decide), fun h => absurd h (by omega)⟩
  · exact ⟨fun h => absurd h (by decide), fun h => absurd h (by omega)⟩
  · exact ⟨fun _ => by omega, fun _ => rfl⟩

/- Dedupe lemmas (source lines 108-112). -/

theorem dedupeGo_mem {l : List String} :
    ∀ {seen x}, x ∈ dedupeGo l seen → x ∈ l ∧ seen.contains x = false := by
  induction l with
  | nil => intro seen x h; simp [dedupeGo] at h
  | cons t ts ih =>
    intro seen x h
    unfold dedupeGo at h
    by_cases hc : seen.contains t = true
    · rw [if_pos hc] at h
      obtain ⟨h1, h2⟩ := ih h
      exact ⟨List.mem_cons_of_mem _ h1, h2⟩
    · rw [if_neg hc] at h
      rcases List.mem_cons.mp h with h | h
      · subst h
        exact ⟨List.mem_cons_self _ _, Bool.not_eq_true _ ▸ hc⟩
      · obtain ⟨h1, h2⟩ := ih h
        rw [List.contains_cons, Bool.or_eq_false_iff] at h2
        exact ⟨List.mem_cons_of_mem _ h1, h2.2⟩

theorem dedupeGo_complete {l : List String} :
    ∀ {seen x}, x ∈ l → seen.contains x = false → x ∈ dedupeGo l seen := by
  induction l with
  | nil => intro seen x h; simp at h
  | cons t ts ih =>
    intro seen x hx hs
    unfold dedupeGo
    by_cases hc : seen.contains t = true
    · rw [if_pos hc]
      rcases List.mem_cons.mp hx with h | h
      · subst h; rw [hc] at hs; exact absurd hs (by simp)
      · exact ih h hs
    · rw [if_neg hc]
      rcases List.mem_cons.mp hx with h | h
      · subst h; exact List.mem_cons_self _ _
      · by_cases hxt : x = t
        · subst hxt; exact List.mem_cons_self _ _
        · refine List.mem_cons_of_mem _ (ih h ?_)
          rw [List.contains_cons, hs, beq_false_of_ne hxt]
          rfl

theorem dedupeGo_nodup (l : List String) : ∀ seen, (dedupeGo l seen).Nodup := by
  induction l with
  | nil => intro seen; simp [dedupeGo]
  | cons t ts ih =>
    intro seen
    unfold dedupeGo
    by_cases hc : seen.contains t = true
    · rw [if_pos hc]; exact ih seen
    · rw [if_neg hc]
      refine List.nodup_cons.mpr ⟨?_, ih (t :: seen)⟩
      intro hmem
      have h2 := (dedupeGo_mem hmem).2
      rw [List.contains_cons] at h2
      simp at h2

theorem dedupeGo_pairwise (l : List String) :
    ∀ seen, (dedupeGo l seen).Pairwise (fun a b => l.indexOf a < l.indexOf b) := by
  induction l with
  | nil => intro seen; simp [dedupeGo]
  | cons t ts ih =>
    intro seen
    unfold dedupeGo
    have hshift : ∀ x : String, x ≠ t → (t :: ts).indexOf x = ts.indexOf x + 1 := by
      intro x hx
      exact List.indexOf_cons_ne ts (fun h => hx h.symm)
    by_cases hc : seen.contains t = true
    · rw [if_pos hc]
      refine (ih seen).imp_of_mem ?_
      intro a b ha hb hab
      have hat : a ≠ t := by
        intro h; subst h
        have := (dedupeGo_mem ha).2
        rw [hc] at this; simp at this
      have hbt : b ≠ t := by
        intro h; subst h
        have := (dedupeGo_mem hb).2
        rw [hc] at this; simp at this
      rw [hshift a hat, hshift b hbt]
      omega
    · rw [if_neg hc]
      have hne : ∀ x, x ∈ dedupeGo ts (t :: seen) → x ≠ t := by
        intro x hx h
        subst h
        have := (dedupeGo_mem hx).2
        rw [List.contains_cons] at this
        simp at this
      refine List.pairwise_cons.mpr ⟨?_, ?_⟩
      · intro b hb
        rw [List.indexOf_cons_self, hshift b (hne b hb)]
        omega
      · refine (ih (t :: seen)).imp_of_mem ?_
        intro a b ha hb hab
        rw [hshift a (hne a ha), hshift b (hne b hb)]
        omega

theorem dedupe_nodup (l : List String) : (dedupe l).Nodup := dedupeGo_nodup l []

theorem mem_dedupe (l : List String) (x : String) : x ∈ dedupe l ↔ x ∈ l :=
  ⟨fun h => (dedupeGo_mem h).1, fun h => dedupeGo_complete h rfl⟩

theorem dedupe_pairwise (l : List String) :
    (dedupe l).Pairwise (fun a b => l.indexOf a < l.indexOf b) := dedupeGo_pairwise l []

/- ===================== Scorer claim theorems ===================== -/

/-- C4: for every string `s`, `rate(s).score` is an integer in `[0, 100]`,
and `rate(s).rating` is obtained from the score by the fixed thresholds
(`< 25` Very Weak, `< 45` Weak, `< 65` Fair, `< 85` Strong, else Excellent,
the content of `ratingOf`). -/
theorem rate_password_score_range_rating (s : String) :
    0 ≤ (rate_password s).score ∧ (rate_password s).score ≤ 100 ∧
      (rate_password s).rating = ratingOf (rate_password s).score := by
  unfold rate_password
  split
  · exact ⟨le_refl 0, by norm_num, by decide⟩
  · refine ⟨score_of_nonneg s, ?_, rfl⟩
    show score_of s ≤ 100
    unfold score_of
    omega

/-- C5: `rate` on the empty string returns exactly the minimum assessment:
score 0, rating "Very Weak", entropy 0.0, feedback `["Password is empty."]`. -/
theorem rate_password_empty :
    rate_password "" =
      { score := 0, rating := "Very Weak", entropy := 0, feedback := ["Password is empty."] } := by
  decide

/-- C6: non-strict monotonicity in length — for two passwords with the
same character classes present, neither in the common list and neither
triggering the repeat or sequence penalties, the longer one's score is at
least the shorter one's. -/
theorem rate_password_length_monotone (p1 p2 : String)
    (hl : has_lower p1 = has_lower p2) (hu : has_upper p1 = has_upper p2)
    (hd : has_digit p1 = has_digit p2) (hsy : has_symbol p1 = has_symbol p2)
    (hc1 : COMMON.contains (strLower p1) = false) (hc2 : COMMON.contains (strLower p2) = false)
    (hr1 : has_repeats p1 = false) (hr2 : has_repeats p2 = false)
    (hq1 : has_sequence p1 = false) (hq2 : has_sequence p2 = false)
    (hlen : p1.length < p2.length) :
    (rate_password p1).score ≤ (rate_password p2).score := by
  have h2 : ¬ p2.length = 0 := by omega
  rw [rate_score_eq p2 h2]
  by_cases h1 : p1.length = 0
  · have : (rate_password p1).score = 0 := by simp [rate_password, h1]
    rw [this]
    exact score_of_nonneg p2
  · rw [rate_score_eq p1 h1]
    have hcs : charset_size p1 = charset_size p2 := charset_size_congr hl hu hd hsy
    have hv : variety p1 = variety p2 := variety_congr hl hu hd hsy
    have hE : (intLog2 (charset_size p1 ^ p1.length) : Int)
        ≤ (intLog2 (charset_size p2 ^ p2.length) : Int) := by
      have hle : charset_size p1 ^ p1.length ≤ charset_size p2 ^ p2.length := by
        rw [hcs]
        exact Nat.pow_le_pow_right (charset_size_pos p2) hlen.le
      exact_mod_cast intLog2_mono hle
    unfold score_of base_score entropy_floor
    rw [penalties_fst_of p1 hc1 hr1 hq1, penalties_fst_of p2 hc2 hr2 hq2, hv]
    split_ifs <;> omega

/-- C7: for every input, the returned feedback list has no duplicates, has
exactly the entries of the pre-dedupe feedback, and lists them in order of
first occurrence in the pre-dedupe feedback. -/
theorem rate_password_feedback_nodup_first_order (s : String) :
    (rate_password s).feedback.Nodup ∧
      (∀ x, x ∈ (rate_password s).feedback ↔ x ∈ rawFeedback s) ∧
      (rate_password s).feedback.Pairwise
        (fun a b => (rawFeedback s).indexOf a < (rawFeedback s).indexOf b) := by
  unfold rate_password
  split
  case isTrue h =>
    rw [rawFeedback, if_pos h]
    refine ⟨by simp, fun x => by simp, by simp⟩
  case isFalse h =>
    exact ⟨dedupe_nodup _, fun x => mem_dedupe _ x, dedupe_pairwise _⟩

/-- C9 (implicit): the score never exceeds 95 — the base is at most
`min(80, ⌊entropy⌋) + 15` — and the rating is "Excellent" exactly when the
score is at least 85 (hence scores in `[85, 95]`). -/
theorem rate_password_score_le_95 (s : String) :
    (rate_password s).score ≤ 95 ∧
      ((rate_password s).rating = "Excellent" ↔ 85 ≤ (rate_password s).score) := by
  unfold rate_password
  split
  · exact ⟨by norm_num, by decide⟩
  · constructor
    · have hv4 := variety_le_four s
      have hp := penalties_fst_nonneg s
      show score_of s ≤ 95
      unfold score_of base_score
      omega
    · exact ratingOf_excellent_iff _

set_option maxRecDepth 8192 in
/-- C10 (implicit): some non-empty input (all four classes, length 16, not
in the common list, no repeat or sequence trigger) yields an empty
feedback list — feedback is not guaranteed to contain an advisory. -/
theorem rate_password_feedback_can_be_empty :
    "Tr0ub4dor&9xZpQm".length = 16 ∧
      has_lower "Tr0ub4dor&9xZpQm" = true ∧ has_upper "Tr0ub4dor&9xZpQm" = true ∧
      has_digit "Tr0ub4dor&9xZpQm" = true ∧ has_symbol "Tr0ub4dor&9xZpQm" = true ∧
      COMMON.contains (strLower "Tr0ub4dor&9xZpQm") = false ∧
      has_repeats "Tr0ub4dor&9xZpQm" = false ∧ has_sequence "Tr0ub4dor&9xZpQm" = false ∧
      (rate_password "Tr0ub4dor&9xZpQm").feedback = [] := by
  decide

/-- Witness for C6 at concrete inputs: "wmwmwmwm" (score 27) against
"wmwmwmwmwmwm" (score 56), both lowercase-only with no penalty triggers
beyond length. -/
theorem rate_password_length_monotone_inst :
    (rate_password "wmwmwmwm").score ≤ (rate_password "wmwmwmwmwmwm").score :=
  rate_password_length_monotone "wmwmwmwm" "wmwmwmwmwmwm" (by decide) (by decide) (by decide)
    (by decide) (by decide) (by decide) (by decide) (by decide) (by decide) (by decide)
    (by decide)

/- ===================== Generator lemmas ===================== -/

theorem draw_fst_lt {bound : Nat} (h : 0 < bound) (r : RSrc) : (draw bound r).1 < bound := by
  cases r with
  | nil => simpa [draw] using h
  | cons n rest => simp only [draw]; exact Nat.mod_lt _ h

theorem choice_ok {seq : String} (h : ¬ seq.length = 0) (r : RSrc) :
    ∃ c r2, choice seq r = .ok (c, r2) ∧ c ∈ seq.data := by
  unfold choice
  rw [if_neg h]
  refine ⟨_, _, rfl, ?_⟩
  have hlt : (draw seq.length r).1 < seq.data.length :=
    draw_fst_lt (Nat.pos_of_ne_zero h) r
  rw [List.getD_eq_getElem _ _ hlt]
  exact List.getElem_mem hlt

theorem randbelow_ok {bound : Nat} (h : 0 < bound) (r : RSrc) :
    randbelow bound r = .ok (draw bound r) := by
  unfold randbelow
  rw [if_neg (by omega)]

theorem fillList_ok {seq : String} (h : ¬ seq.length = 0) :
    ∀ (n : Nat) (r : RSrc), ∃ out r2, fillList n seq r = .ok (out, r2) ∧
      out.length = n ∧ ∀ c ∈ out, c ∈ seq.data := by
  intro n
  induction n with
  | zero => intro r; exact ⟨[], r, rfl, rfl, by simp⟩
  | succ m ih =>
    intro r
    obtain ⟨c, r1, hc, hmem⟩ := choice_ok h r
    obtain ⟨out, r2, heq, hlen, hall⟩ := ih r1
    refine ⟨c :: out, r2, ?_, by simp [hlen], ?_⟩
    · unfold fillList
      rw [hc]
      dsimp only
      rw [heq]
    · intro d hd
      rcases List.mem_cons.mp hd with h | h
      · subst h; exact hmem
      · exact hall d h

theorem ensureComplexity_ok :
    ∀ (pools : List String) (pw : List Char) (r : RSrc),
      ¬ pw.length = 0 → (∀ pool ∈ pools, ¬ pool.length = 0) →
      ∃ out r2, ensureComplexity pools pw r = .ok (out, r2) ∧
        out.length = pw.length ∧
        ∀ c ∈ out, c ∈ pw ∨ ∃ pool ∈ pools, c ∈ pool.data := by
  intro pools
  induction pools with
  | nil =>
    intro pw r _ _
    exact ⟨pw, r, rfl, rfl, fun c hc => Or.inl hc⟩
  | cons pool ps ih =>
    intro pw r hpw hpools
    have hpool : ¬ pool.length = 0 := hpools pool (List.mem_cons_self _ _)
    have hrb := randbelow_ok (Nat.pos_of_ne_zero hpw) r
    obtain ⟨c, r2, hch, hcm⟩ := choice_ok hpool (draw pw.length r).2
    have hpw2 : ¬ (pw.set (draw pw.length r).1 c).length = 0 := by
      rw [List.length_set]; exact hpw
    obtain ⟨out, r3, heq, hlen, hall⟩ :=
      ih (pw.set (draw pw.length r).1 c) r2 hpw2
        (fun q hq => hpools q (List.mem_cons_of_mem _ hq))
    refine ⟨out, r3, ?_, by rw [hlen, List.length_set], ?_⟩
    · unfold ensureComplexity
      rw [hrb]
      dsimp only
      rw [hch]
      dsimp only
      exact heq
    · intro d hd
      rcases hall d hd with h | ⟨q, hq, hdq⟩
      · rcases List.mem_or_eq_of_mem_set h with h' | h'
        · exact Or.inl h'
        · subst h'; exact Or.inr ⟨pool, List.mem_cons_self _ _, hcm⟩
      · exact Or.inr ⟨q, List.mem_cons_of_mem _ hq, hdq⟩

theorem listSwap_length (l : List Char) (i j : Nat) : (listSwap l i j).length = l.length := by
  unfold listSwap
  rw [List.length_set, List.length_set]

theorem listSwap_mem {l : List Char} {i j : Nat} (hi : i < l.length) (hj : j < l.length) :
    ∀ a ∈ listSwap l i j, a ∈ l := by
  intro a ha
  unfold listSwap at ha
  rcases List.mem_or_eq_of_mem_set ha with h | h
  · rcases List.mem_or_eq_of_mem_set h with h' | h'
    · exact h'
    · subst h'; rw [List.getD_eq_getElem _ _ hj]; exact List.getElem_mem hj
  · subst h; rw [List.getD_eq_getElem _ _ hi]; exact List.getElem_mem hi

theorem shuffleAux_length :
    ∀ (i : Nat) (x : List Char) (r : RSrc), (shuffleAux i x r).1.length = x.length := by
  intro i
  induction i with
  | zero => intro x r; rfl
  | succ m ih =>
    intro x r
    unfold shuffleAux
    rw [ih, listSwap_length]

theorem shuffleAux_mem :
    ∀ (i : Nat) (x : List Char) (r : RSrc), i < x.length →
      ∀ a ∈ (shuffleAux i x r).1, a ∈ x := by
  intro i
  induction i with
  | zero => intro x r _ a ha; exact ha
  | succ m ih =>
    intro x r hi a ha
    unfold shuffleAux at ha
    have hj : (draw (m + 2) r).1 < x.length :=
      lt_of_lt_of_le (draw_fst_lt (by omega) r) (by omega)
    have hrec := ih (listSwap x (m + 1) (draw (m + 2) r).1) (draw (m + 2) r).2
      (by rw [listSwap_length]; omega) a ha
    exact listSwap_mem hi hj a hrec

theorem shuffle_length (x : List Char) (r : RSrc) : (shuffle x r).1.length = x.length :=
  shuffleAux_length _ _ _

theorem shuffle_mem (x : List Char) (r : RSrc) : ∀ a ∈ (shuffle x r).1, a ∈ x := by
  intro a ha
  unfold shuffle at ha
  cases hx : x.length with
  | zero =>
    rw [hx] at ha
    exact ha
  | succ m =>
    rw [hx] at ha
    exact shuffleAux_mem _ _ _ (by omega) a ha

theorem build_charset_nonempty : ∀ l u d s n : Bool, (l || u || d || s) = true →
    ¬ (build_charset l u d s n).length = 0 := by decide

theorem build_charset_sub : ∀ l u d s n : Bool,
    ∀ c ∈ (build_charset l u d s n).data, c ∈ (build_charset l u d s false).data := by decide

theorem classPools_sub : ∀ l u d s : Bool, ∀ pool ∈ classPools l u d s,
    ∀ c ∈ pool.data, c ∈ (build_charset l u d s false).data := by decide

theorem classPools_nonempty : ∀ l u d s : Bool, ∀ pool ∈ classPools l u d s,
    ¬ pool.length = 0 := by decide

/-- A valid run of the generator: it succeeds, the output has exactly
`length` characters, and every character comes from the union of the
enabled class pools. -/
theorem generate_spec (p : GenerationParams) (r : RSrc) (h : validParams p) :
    ∃ s r2, generate_password p r = .ok (s, r2) ∧ s.length = p.length ∧
      ∀ c ∈ s.data, c ∈ (build_charset p.lower p.upper p.digits p.symbols false).data := by
  obtain ⟨hflags, hlen⟩ := h
  have hcs : ¬ (build_charset p.lower p.upper p.digits p.symbols p.no_amb).length = 0 :=
    build_charset_nonempty _ _ _ _ _ hflags
  obtain ⟨pw, r1, hfill, hfl, hfm⟩ := fillList_ok hcs p.length r
  have hpw : ¬ pw.length = 0 := by rw [hfl]; omega
  obtain ⟨pw2, r2, hens, hel, hem⟩ :=
    ensureComplexity_ok (classPools p.lower p.upper p.digits p.symbols) pw r1 hpw
      (classPools_nonempty _ _ _ _)
  refine ⟨String.mk (shuffle pw2 r2).1, (shuffle pw2 r2).2, ?_, ?_, ?_⟩
  · unfold generate_password
    rw [if_neg (by simp [hflags]), if_neg (by omega)]
    rw [hfill]
    dsimp only
    rw [hens]
  · show (shuffle pw2 r2).1.length = p.length
    rw [shuffle_length, hel, hfl]
  · intro c hc
    have hc2 := shuffle_mem pw2 r2 c hc
    rcases hem c hc2 with h1 | ⟨pool, hpool, hcp⟩
    · exact build_charset_sub _ _ _ _ _ c (hfm c h1)
    · exact classPools_sub _ _ _ _ pool hpool c hcp

/-- An invalid run raises one of the two validation `ValueError`s, without
consuming the random source (the result does not mention `r`). -/
theorem generate_invalid (p : GenerationParams) (r : RSrc) (h : ¬ validParams p) :
    generate_password p r = .error (.valueError "Enable at least one character set.") ∨
      generate_password p r = .error (.valueError "Length too short for requested complexity.") := by
  by_cases hA : (p.lower || p.upper || p.digits || p.symbols) = true
  · have hB : ¬ max 4 (numTrue p) ≤ p.length := fun hb => h ⟨hA, hb⟩
    right
    unfold generate_password
    rw [if_neg (by simp [hA]), if_pos (by omega)]
  · left
    have hf : (p.lower || p.upper || p.digits || p.symbols) = false :=
      Bool.not_eq_true _ ▸ hA
    unfold generate_password
    rw [if_pos (by simp [hf])]

/- ===================== Generator claim theorems ===================== -/

/-- C2: `generate` raises a `ConfigurationError` (one of the two
validation `ValueError`s, independent of the random trace — hence no
output and no random draw) exactly when no class flag is true or
`length < max(4, number of true flags)`; on every valid input it returns
normally, for every trace. -/
theorem generate_password_config_error_iff (p : GenerationParams) (r : RSrc) :
    (¬ validParams p →
      generate_password p r = .error (.valueError "Enable at least one character set.") ∨
        generate_password p r = .error (.valueError "Length too short for requested complexity.")) ∧
    (validParams p → ∃ s r2, generate_password p r = .ok (s, r2)) := by
  refine ⟨generate_invalid p r, fun h => ?_⟩
  obtain ⟨s, r2, hs, _, _⟩ := generate_spec p r h
  exact ⟨s, r2, hs⟩

/-- Witness for C2: an invalid input (length 3 with four flags) raises the
length `ValueError`; a valid input (length 16) returns normally. -/
theorem generate_password_config_error_iff_inst :
    (generate_password ⟨3, true, true, true, true, false⟩ [] =
        .error (.valueError "Enable at least one character set.") ∨
      generate_password ⟨3, true, true, true, true, false⟩ [] =
        .error (.valueError "Length too short for requested complexity.")) ∧
    (∃ s r2, generate_password ⟨16, true, true, true, true, false⟩ [0, 1, 2] = .ok (s, r2)) :=
  ⟨(generate_password_config_error_iff ⟨3, true, true, true, true, false⟩ []).1 (by decide),
   (generate_password_config_error_iff ⟨16, true, true, true, true, false⟩ [0, 1, 2]).2 (by decide)⟩

/-- C3: on every valid input and trace, `generate` returns a string of
exactly `length` characters, each belonging to the union of the class
pools selected by the true flags (`build_charset` with no ambiguous
filtering). -/
theorem generate_password_length_membership (p : GenerationParams) (r : RSrc)
    (h : validParams p) (s : String) (r2 : RSrc)
    (hout : generate_password p r = .ok (s, r2)) :
    s.length = p.length ∧
      ∀ c ∈ s.data, c ∈ (build_charset p.lower p.upper p.digits p.symbols false).data := by
  obtain ⟨s', r2', heq, hlen, hmem⟩ := generate_spec p r h
  rw [hout] at heq
  simp only [Except.ok.injEq, Prod.mk.injEq] at heq
  obtain ⟨hs', _⟩ := heq
  subst hs'
  exact ⟨hlen, hmem⟩

/-- Witness for C3 at a concrete valid input and trace. -/
theorem generate_password_length_membership_inst :
    "bedgc".length = 5 ∧
      ∀ c ∈ "bedgc".data, c ∈ (build_charset true false false false false).data :=
  generate_password_length_membership ⟨5, true, false, false, false, false⟩
    [0, 1, 2, 3, 4, 5, 6, 7, 8] (by decide) "bedgc" [] (by decide)

/-- C8: on every valid input the built character pool is non-empty (also
with `excludeAmbiguous`), and the generator can never hit the empty-pool
`IndexError` branch of the uniform selection. -/
theorem build_charset_valid_nonempty (p : GenerationParams) (r : RSrc) (h : validParams p) :
    ¬ (build_charset p.lower p.upper p.digits p.symbols p.no_amb).length = 0 ∧
      generate_password p r ≠ .error .indexError := by
  refine ⟨build_charset_nonempty _ _ _ _ _ h.1, ?_⟩
  obtain ⟨s, r2, hs, _, _⟩ := generate_spec p r h
  rw [hs]
  intro hcon
  exact Except.noConfusion hcon

/-- Witness for C8: digits-only with ambiguous exclusion still has a
non-empty pool and a run with no `IndexError`. -/
theorem build_charset_valid_nonempty_inst :
    ¬ (build_charset false false true false true).length = 0 ∧
      generate_password ⟨4, false, false, true, false, true⟩ [1, 2, 3, 4, 0, 0, 5, 6, 7] ≠
        .error .indexError :=
  build_charset_valid_nonempty ⟨4, false, false, true, false, true⟩
    [1, 2, 3, 4, 0, 0, 5, 6, 7] (by decide)

/-- C1 fails on the code: with `excludeAmbiguous` set the denylist is
removed from the combined pool (`build_charset`), but the per-class pools
of the complexity-guarantee overwrite (source lines 137-144) are the raw
pools, so an ambiguous character can appear in the output.  Concrete run:
digits only, `no_amb = true`, and a trace whose overwrite draw picks the
digit 0 — the returned password "2220" contains the denylisted 0. -/
theorem ambiguous_char_in_no_amb_output :
    (⟨4, false, false, true, false, true⟩ : GenerationParams).no_amb = true ∧
      generate_password ⟨4, false, false, true, false, true⟩ [0, 0, 0, 0, 0, 0, 0, 0, 0] =
        .ok ("2220", []) ∧
      '0' ∈ "2220".data ∧ '0' ∈ AMBIGUOUS := by
  decide

end BlueGuard
